import Mathlib

/-!
# vkQuake, `Quake/sys_android.c`: handle table, file access, lifecycle, console input

A shallow embedding of the Android system layer of vkQuake and the properties
its design document states about it.

Conventions of the embedding:

* a C function that touches global state takes the state and returns the new one;
* a call that ends in `Sys_Error` (which never returns: it ends in `exit (1)`)
  is the result `Outcome.fatal`, carrying the format string of the message;
* an access outside an array, or a call the C standard leaves undefined, is the
  result `Outcome.undefined` (respectively `none` for the console and the asset
  reader, which have no fatal path);
* calls into libc / the NDK (`fopen`, `mkdir`, `stat`, `select`, `read`,
  `AAssetManager_open`) are not modelled: their results are arguments.
-/

set_option maxRecDepth 8000
set_option autoImplicit false

namespace SysAndroid

/-! ## Bytes and C strings -/

/-- A `char`, by the value of its byte. -/
abbrev Byte := Fin 256

/-- The C string that starts at the first byte of a `char` array: the bytes
before the first NUL; `none` when the array holds no NUL (reading it as a
string would leave the array). -/
def cstr (buf : List Byte) : Option (List Byte) :=
  if (0 : Byte) ∈ buf then some (buf.takeWhile (fun b => b ≠ 0)) else none

/-! ## Results of a call -/

/-- Result of a call of the system layer. -/
inductive Outcome (α : Type) where
  /-- the call returned `a` -/
  | ok (a : α)
  /-- the call reached `Sys_Error (fmt, ...)`; the process is terminated -/
  | fatal (fmt : String)
  /-- undefined behaviour of the C program (or loop fuel exhausted) -/
  | undefined
  deriving DecidableEq, Repr

/-- One call of `Sys_Printf`: the format string and its argument. -/
inductive Printed where
  /-- no argument -/
  | plain (fmt : String)
  /-- a `%s` argument -/
  | str (fmt : String) (s : List Byte)
  /-- a `%d` argument -/
  | num (fmt : String) (n : Nat)
  deriving DecidableEq, Repr

/-! ## The handle table -/

/-- The constant `#define MAX_HANDLES 32`. -/
def MAX_HANDLES : Nat := 32

/-- A `FILE *` that is not `NULL`, named by its address. -/
abbrev FILE := Nat

/-- The array `static FILE *sys_handles[MAX_HANDLES];` where `none` is the `NULL` pointer. -/
abbrev Table := Fin MAX_HANDLES → Option FILE

/-- The table of a fresh process: static storage is zero-initialised. -/
def Table.empty : Table := fun _ => none

/-- The loop of `findhandle`,
`for (i = ...; i < MAX_HANDLES; i++) if (!sys_handles[i]) return i;`
followed by `Sys_Error ("out of handles")`. One unit of fuel is one test of the
loop condition. -/
def findhandle_loop (t : Table) : Nat → Nat → Outcome Int
  | 0, _ => .undefined
  | fuel + 1, i =>
    if h : i < MAX_HANDLES then
      if (t ⟨i, h⟩).isNone then .ok (i : Int)
      else findhandle_loop t fuel (i + 1)
    else .fatal "out of handles"

/-- The function `static int findhandle (void)`: the loop starts at `i = 1`. The table is only
read; it is returned as it was received. -/
def findhandle (t : Table) : Outcome (Int × Table) :=
  match findhandle_loop t MAX_HANDLES 1 with
  | .ok i => .ok (i, t)
  | .fatal m => .fatal m
  | .undefined => .undefined

/-- The store `sys_handles[i] = f` for an `int` index: undefined outside `0 .. MAX_HANDLES-1`. -/
def Table.store (t : Table) (i : Int) (f : Option FILE) : Outcome Table :=
  if h : 0 ≤ i ∧ i < (MAX_HANDLES : Int) then
    .ok (Function.update t ⟨i.toNat, by have := h.1; have := h.2; omega⟩ f)
  else .undefined

/-- The load `sys_handles[i]` for an `int` index, `none` outside the array. The inner
option is the pointer read. -/
def Table.load (t : Table) (i : Int) : Option (Option FILE) :=
  if h : 0 ≤ i ∧ i < (MAX_HANDLES : Int) then
    some (t ⟨i.toNat, by have := h.1; have := h.2; omega⟩)
  else none

/-- What `Sys_FileOpenRead` hands back: the return value and `*hndl`. -/
structure OpenReadResult where
  retval : Int
  hndl : Int
  deriving DecidableEq, Repr

/-- The function `int Sys_FileOpenRead (const char *path, int *hndl)` of the raw-filesystem
build (`#else` branch). `f` is what `fopen (path, "rb")` returns and `len` what
`Sys_filelength (f)` returns, converted to `int`. -/
def Sys_FileOpenRead (t : Table) (f : Option FILE) (len : Int) :
    Outcome (OpenReadResult × Table) :=
  match findhandle t with
  | .ok (i, t1) =>
    match f with
    | none => .ok ({ retval := -1, hndl := -1 }, t1)
    | some p =>
      match t1.store i (some p) with
      | .ok t2 => .ok ({ retval := len, hndl := i }, t2)
      | .fatal m => .fatal m
      | .undefined => .undefined
  | .fatal m => .fatal m
  | .undefined => .undefined

/-- The function `int Sys_FileOpenWrite (const char *path)`. `f` is what `fopen (path, "wb")`
returns. -/
def Sys_FileOpenWrite (t : Table) (f : Option FILE) : Outcome (Int × Table) :=
  match findhandle t with
  | .ok (i, t1) =>
    match f with
    | none => .fatal "Error opening %s: %s"
    | some p =>
      match t1.store i (some p) with
      | .ok t2 => .ok (i, t2)
      | .fatal m => .fatal m
      | .undefined => .undefined
  | .fatal m => .fatal m
  | .undefined => .undefined

/-- The function `void Sys_FileClose (int handle)` of the raw-filesystem build:
`fclose (sys_handles[handle]); sys_handles[handle] = NULL;`. Reading outside the
array and `fclose (NULL)` are undefined. -/
def Sys_FileClose (t : Table) (handle : Int) : Outcome Table :=
  match t.load handle with
  | some (some _) => t.store handle none
  | _ => .undefined

/-! ### Sequences of opens and closes -/

/-- One call of the file layer, with the result of the `fopen` inside it. -/
inductive FileOp where
  /-- A call of `Sys_FileOpenRead` whose `fopen` returns `f`, of length `len` -/
  | openRead (f : FILE) (len : Int)
  /-- A call of `Sys_FileOpenWrite` whose `fopen` returns `f` -/
  | openWrite (f : FILE)
  /-- A call `Sys_FileClose (h)` -/
  | close (h : Int)
  deriving DecidableEq, Repr

/-- Runs a sequence of successful opens and of closes on live handles, from the
table `t` with the handles `live` outstanding (most recent first). It yields
the final table and live handles, and `none` as soon as a call does not return
or a close names a handle that is not live. -/
def runOps : Table → List Int → List FileOp → Option (Table × List Int)
  | t, live, [] => some (t, live)
  | t, live, .openRead f len :: ops =>
    match Sys_FileOpenRead t (some f) len with
    | .ok (r, t1) => runOps t1 (r.hndl :: live) ops
    | _ => none
  | t, live, .openWrite f :: ops =>
    match Sys_FileOpenWrite t (some f) with
    | .ok (h, t1) => runOps t1 (h :: live) ops
    | _ => none
  | t, live, .close h :: ops =>
    if h ∈ live then
      match Sys_FileClose t h with
      | .ok t1 => runOps t1 (live.erase h) ops
      | _ => none
    else none

/-! ## Packaged assets (`LOAD_FROM_ASSETS`) -/

/-- An `AAsset *` that is not `NULL`, named by its address. -/
abbrev AAsset := Nat

/-- The call `memcpy (dst, src, n)` into the array `dst` from the bytes `src` readable at
the source address; `none` when `n` bytes do not fit the array or are not
there to read. -/
def memcpy (dst src : List Byte) (n : Nat) : Option (List Byte) :=
  if n ≤ dst.length ∧ n ≤ src.length then some (src.take n ++ dst.drop n) else none

/-- What the asset build of `Sys_FileOpenRead` did. -/
structure AssetOpen where
  /-- the name passed to `AAssetManager_open` -/
  lookedUp : List Byte
  /-- the pointer returned, `none` for `NULL` -/
  result : Option AAsset
  /-- the calls of `Sys_Printf` -/
  log : List Printed
  deriving DecidableEq, Repr

/-- The function `AAsset* Sys_FileOpenRead (const char *path)` of the asset build. `path` is
the bytes of the C string before its NUL, so `path[i]` is `path.getD i 0` for
`i ≤ strlen (path)`; the function reads `path[1]` only when `path[0]` is '.'.
The result is `none` when `memcpy` overruns `filepath` or when the 512 bytes of
`filepath` hold no NUL. -/
def Sys_FileOpenRead_asset (AAssetManager_open : List Byte → Option AAsset)
    (AAsset_getLength : AAsset → Nat) (path : List Byte) : Option AssetOpen :=
  let s : Nat := if path.getD 0 0 = 46 ∧ path.getD 1 0 = 47 then 2 else 0
  let zeroed : List Byte := List.replicate 512 0
  match memcpy zeroed ((path ++ [0]).drop s) (path.length - s) with
  | none => none
  | some filepath =>
    match cstr filepath with
    | none => none
    | some name =>
      match AAssetManager_open name with
      | none =>
        some { lookedUp := name, result := none,
               log := [.str "Opening asset %s" name, .plain "Asset not found"] }
      | some asset =>
        some { lookedUp := name, result := some asset,
               log := [.str "Opening asset %s" name,
                       .num "Asset size %d" (AAsset_getLength asset)] }

/-! ## Directory creation -/

/-- The constant `EEXIST` of `<errno.h>` (17 on Linux and Android). -/
def EEXIST : Int := 17

/-- What `mkdir (path, 0777)` answered: its return value and `errno` after it. -/
structure MkdirResult where
  rc : Int
  errno : Int
  deriving DecidableEq, Repr

/-- What `stat (path, &st)` answered: its return value and `S_ISDIR (st.st_mode)`. -/
structure StatResult where
  rc : Int
  isDir : Bool
  deriving DecidableEq, Repr

/-- The function `void Sys_mkdir (const char *path)`. `stat` is only called, and `sr` only
looked at, when `mkdir` failed with `EEXIST`. -/
def Sys_mkdir (mk : MkdirResult) (sr : StatResult) : Outcome Unit :=
  let rc0 := mk.rc
  let rc1 :=
    if rc0 ≠ 0 ∧ mk.errno = EEXIST then
      if sr.rc = 0 ∧ sr.isDir = true then 0 else rc0
    else rc0
  if rc1 ≠ 0 then .fatal "Unable to create directory %s: %s" else .ok ()

/-! ## Lifecycle -/

/-- What the process does to the outside world, in the order it does it. -/
inductive Event where
  /-- The call `fputs (s, stderr)` -/
  | fputs_stderr (s : String)
  /-- the call `Host_Shutdown ()` into the host -/
  | Host_Shutdown
  /-- The call `__android_log_vprint (ANDROID_LOG_ERROR, APPTAG, fmt, ...)` -/
  | android_log_error (fmt : String)
  /-- The call `PL_ErrorDialog (text)` -/
  | PL_ErrorDialog (text : String)
  /-- The call `exit (status)`: the process ends -/
  | exit (status : Int)
  deriving DecidableEq, Repr

/-- The text `static const char errortxt1[]`. -/
def errortxt1 : String := "\nERROR-OUT BEGIN\n\n"

/-- The text `static const char errortxt2[]`. -/
def errortxt2 : String := "\nQUAKE ERROR: "

/-- The function `void Sys_Error (const char *error, ...)`, as the events it
causes. `isDedicated` is the global of that name (`!isDedicated` holds when it
is 0); `text` is what the local array `char text[1024]` holds, which the
function never writes. -/
def Sys_Error (isDedicated : Int) (error : String) (text : String) : List Event :=
  [.fputs_stderr errortxt1, .Host_Shutdown, .android_log_error error,
    .fputs_stderr errortxt2, .fputs_stderr text, .fputs_stderr "\n\n"]
  ++ (if isDedicated = 0 then [.PL_ErrorDialog text] else [])
  ++ [.exit 1]

/-- The function `void Sys_Quit (void)`. -/
def Sys_Quit : List Event := [.Host_Shutdown, .exit 0]

/-! ## Console input -/

/-- The size `sizeof (con_text)`. -/
def CON_TEXT_SIZE : Int := 256

/-- The statics of `Sys_ConsoleInput`: `static char con_text[256]` and
`static int textlen`. -/
structure ConState where
  con_text : List Byte
  textlen : Int
  deriving DecidableEq, Repr

/-- The state of a fresh process: static storage is zero-initialised. -/
def ConState.initial : ConState := { con_text := List.replicate 256 0, textlen := 0 }

/-- The store `con_text[i] = c` for an `int` index; `none` when the index is
outside `0 .. 255`. -/
def poke (buf : List Byte) (i : Int) (c : Byte) : Option (List Byte) :=
  if 0 ≤ i ∧ i < CON_TEXT_SIZE then some (buf.set i.toNat c) else none

/-- The load `con_text[i]` for an `int` index; `none` outside `0 .. 255`. -/
def peek (buf : List Byte) (i : Int) : Option Byte :=
  if 0 ≤ i ∧ i < CON_TEXT_SIZE then buf[i.toNat]? else none

/-- What one call of `Sys_ConsoleInput` leaves behind. -/
structure PollOut where
  /-- Is `true` when the call returns `con_text`, `false` when it returns `NULL` -/
  line : Bool
  /-- the statics after the call -/
  st : ConState
  /-- the bytes of standard input the call has not read -/
  rest : List Byte
  /-- the calls of `Sys_Printf` -/
  log : List Printed
  deriving DecidableEq, Repr

/-- The function `const char *Sys_ConsoleInput (void)`. The second argument is the bytes
waiting on standard input: `select` reports input while it is not empty, and
`read (0, &c, 1)` takes its first byte (end of file and read errors are not
modelled). The result is `none` when a store leaves the array. -/
def Sys_ConsoleInput : ConState → List Byte → Option PollOut
  | st, [] => some { line := false, st := st, rest := [], log := [] }
  | st, c :: rest =>
    if c = 10 ∨ c = 13 then
      match poke st.con_text st.textlen 0 with
      | none => none
      | some b => some { line := true, st := { con_text := b, textlen := 0 }, rest := rest, log := [] }
    else if c = 8 then
      if st.textlen ≠ 0 then
        match poke st.con_text (st.textlen - 1) 0 with
        | none => none
        | some b => Sys_ConsoleInput { con_text := b, textlen := st.textlen - 1 } rest
      else Sys_ConsoleInput st rest
    else
      match poke st.con_text st.textlen c with
      | none => none
      | some b1 =>
        if st.textlen + 1 < CON_TEXT_SIZE then
          match poke b1 (st.textlen + 1) 0 with
          | none => none
          | some b2 => Sys_ConsoleInput { con_text := b2, textlen := st.textlen + 1 } rest
        else
          match poke b1 0 0 with
          | none => none
          | some b2 =>
            some { line := false, st := { con_text := b2, textlen := 0 }, rest := rest,
                   log := [.plain "\nConsole input too long!\n"] }

/-- The line a call hands to its caller: the C string in `con_text` when the
call returned `con_text`, nothing when it returned `NULL`. -/
def PollOut.returned (o : PollOut) : Option (List Byte) :=
  if o.line then cstr o.st.con_text else none

/-- Successive calls of `Sys_ConsoleInput`. Before each call the next chunk of
bytes arrives on standard input, behind the bytes `pending` that earlier calls
left unread. Yields, for each call, whether it returned a line, then the final
statics and the bytes still unread. -/
def pollSeq : ConState → List Byte → List (List Byte) → Option (List Bool × ConState × List Byte)
  | st, pending, [] => some ([], st, pending)
  | st, pending, chunk :: chunks =>
    match Sys_ConsoleInput st (pending ++ chunk) with
    | none => none
    | some o =>
      match pollSeq o.st o.rest chunks with
      | none => none
      | some (rs, st1, p1) => some (o.line :: rs, st1, p1)

/-! ## Definitions of the specification -/

/-- The slots `1 .. MAX_HANDLES-1` of the table are all occupied. -/
def Table.full (t : Table) : Prop :=
  ∀ j : Fin MAX_HANDLES, 1 ≤ j.val → (t j).isSome

instance (t : Table) : Decidable t.full := by
  unfold Table.full; infer_instance

/-- The handles in `live` are exactly the occupied slots among `1 .. 31`, each
listed once. -/
def LiveInv (t : Table) (live : List Int) : Prop :=
  live.Nodup ∧ (∀ h ∈ live, 1 ≤ h ∧ h ≤ 31) ∧
    ∀ j : Fin MAX_HANDLES, 1 ≤ j.val → ((t j).isSome ↔ (j.val : Int) ∈ live)

/-- The path convention of the design document: a leading "./" is stripped,
once. -/
def stripDotSlash (path : List Byte) : List Byte :=
  if path.take 2 = [46, 47] then path.drop 2 else path

/-- The event is a process exit. -/
def Event.isExit : Event → Bool
  | .exit _ => true
  | _ => false

/-- One byte of line editing in the words of the design document: the
backspace code removes the last buffered character if there is one, any other
byte is appended. -/
def editStep (acc : List Byte) (c : Byte) : List Byte :=
  if c = 8 then acc.dropLast else acc ++ [c]

/-- The line obtained by folding the bytes left to right. -/
def editLine (w : List Byte) : List Byte := w.foldl editStep []

/-- Editing `w` from the text `cur` never reaches 256 characters. -/
def Fits (cur w : List Byte) : Prop :=
  ∀ n : Nat, (List.foldl editStep cur (w.take n)).length < 256

/-- The text `cur` is what the console buffer holds: `textlen` is its length
and it fills the first `textlen` bytes of `con_text`, with room left behind it. -/
def Holds (st : ConState) (cur : List Byte) : Prop :=
  st.textlen = (cur.length : Int) ∧
    ∃ tail : List Byte, st.con_text = cur ++ tail ∧ cur.length + tail.length = 256 ∧
      0 < tail.length

/-- The warning of the overflow branch. -/
def tooLong : Printed := .plain "\nConsole input too long!\n"

/-- The array has its 256 bytes and the length is an index into it. -/
def InRange (st : ConState) : Prop :=
  st.con_text.length = 256 ∧ 0 ≤ st.textlen ∧ st.textlen < 256

/-- The buffer holds a NUL at index `textlen`, or the length is 0 and the buffer
still holds the NUL-terminated line handed out last. -/
def Terminated (st : ConState) : Prop :=
  peek st.con_text st.textlen = some 0 ∨ (st.textlen = 0 ∧ (0 : Byte) ∈ st.con_text)

/-! ## Concrete states used as examples -/

/-- A table whose slots `1 .. 31` all hold an open stream; slot 0 is empty. -/
def tableAllOpen : Table := fun i => if i.val = 0 then none else some (4096 + i.val)

/-- The table after opening two files, closing the first and opening a third. -/
def tableAfterFourCalls : Table :=
  Function.update (Function.update (Function.update (Function.update Table.empty
    ⟨1, by decide⟩ (some 100)) ⟨2, by decide⟩ (some 200)) ⟨1, by decide⟩ none)
    ⟨1, by decide⟩ (some 300)

/-- The state after the call that reads "a" and a line feed. -/
def stateAfterLineA : ConState := { con_text := 97 :: List.replicate 255 0, textlen := 0 }

/-! ## Theorems: the handle table -/

theorem findhandle_loop_full (t : Table) :
    ∀ (fuel i : Nat), MAX_HANDLES - i < fuel →
      (∀ j : Fin MAX_HANDLES, i ≤ j.val → (t j).isSome) →
      findhandle_loop t fuel i = .fatal "out of handles" := by
  intro fuel
  induction fuel with
  | zero =>
    intro i hi hall
    omega
  | succ n ih =>
    intro i hi hall
    unfold findhandle_loop
    by_cases h : i < MAX_HANDLES
    · have hs := hall ⟨i, h⟩ (le_refl _)
      have hn : (t ⟨i, h⟩).isNone = false := by
        cases hti : t ⟨i, h⟩ <;> simp_all
      simp only [h, dite_true, hn]
      exact ih (i + 1) (by omega) (fun j hj => hall j (by omega))
    · simp [h]

theorem findhandle_loop_first (t : Table) :
    ∀ (fuel i : Nat) (k : Fin MAX_HANDLES), MAX_HANDLES - i < fuel → i ≤ k.val →
      t k = none → (∀ j : Fin MAX_HANDLES, i ≤ j.val → j.val < k.val → (t j).isSome) →
      findhandle_loop t fuel i = .ok (k.val : Int) := by
  intro fuel
  induction fuel with
  | zero =>
    intro i k hi hik _ _
    have := k.isLt
    omega
  | succ n ih =>
    intro i k hi hik hk hlow
    unfold findhandle_loop
    have h : i < MAX_HANDLES := lt_of_le_of_lt hik k.isLt
    simp only [h, dite_true]
    by_cases heq : i = k.val
    · have hk2 : t ⟨i, h⟩ = none := by
        have : (⟨i, h⟩ : Fin MAX_HANDLES) = k := Fin.ext heq
        rw [this]; exact hk
      simp [hk2]
      exact heq
    · have hs := hlow ⟨i, h⟩ (le_refl _) (by simp; omega)
      have hn : (t ⟨i, h⟩).isNone = false := by
        cases hti : t ⟨i, h⟩ <;> simp_all
      simp only [hn]
      exact ih (i + 1) k (by omega) (by omega) hk
        (fun j hj hjk => hlow j (by omega) hjk)

theorem findhandle_full (t : Table) (h : t.full) :
    findhandle t = .fatal "out of handles" := by
  unfold findhandle
  rw [findhandle_loop_full t MAX_HANDLES 1 (by simp [MAX_HANDLES]) h]

theorem findhandle_first (t : Table) (k : Fin MAX_HANDLES) (h1 : 1 ≤ k.val)
    (hk : t k = none) (hlow : ∀ j : Fin MAX_HANDLES, 1 ≤ j.val → j.val < k.val → (t j).isSome) :
    findhandle t = .ok ((k.val : Int), t) := by
  unfold findhandle
  rw [findhandle_loop_first t MAX_HANDLES 1 k (by simp [MAX_HANDLES]) h1 hk hlow]

/-- A table that is not full has a lowest empty slot among `1 .. MAX_HANDLES-1`. -/
theorem exists_first_empty (t : Table) (h : ¬ t.full) :
    ∃ k : Fin MAX_HANDLES, 1 ≤ k.val ∧ t k = none ∧
      ∀ j : Fin MAX_HANDLES, 1 ≤ j.val → j.val < k.val → (t j).isSome := by
  have hex : ∃ n : Nat, ∃ hn : n < MAX_HANDLES, 1 ≤ n ∧ t ⟨n, hn⟩ = none := by
    unfold Table.full at h
    push_neg at h
    obtain ⟨j, hj1, hj2⟩ := h
    refine ⟨j.val, j.isLt, hj1, ?_⟩
    cases hh : t j with
    | none => rfl
    | some v => rw [hh] at hj2; simp at hj2
  classical
  obtain ⟨hn, h1, hnone⟩ := Nat.find_spec hex
  refine ⟨⟨Nat.find hex, hn⟩, h1, hnone, ?_⟩
  intro j hj1 hjlt
  have hmin := Nat.find_min hex hjlt
  cases hh : t j with
  | none => exact absurd ⟨j.isLt, hj1, hh⟩ hmin
  | some v => simp

/-- C1. For every state of the table, `findhandle` returns the smallest index
`k` with `1 ≤ k ≤ 31` whose slot is empty (slot 0 is never looked at) together
with the unchanged table, and it ends in the fatal error "out of handles" if and
only if the slots `1 .. 31` are all occupied. -/
theorem C1_findhandle_lowest_empty_or_fatal (t : Table) :
    (¬ t.full →
      ∃ k : Fin MAX_HANDLES, 1 ≤ k.val ∧ k.val ≤ 31 ∧ t k = none ∧
        (∀ j : Fin MAX_HANDLES, 1 ≤ j.val → j.val < k.val → (t j).isSome) ∧
        findhandle t = .ok ((k.val : Int), t)) ∧
    (findhandle t = .fatal "out of handles" ↔ t.full) ∧
    ((∃ m, findhandle t = .fatal m) ↔ t.full) := by
  have hA : ¬ t.full →
      ∃ k : Fin MAX_HANDLES, 1 ≤ k.val ∧ k.val ≤ 31 ∧ t k = none ∧
        (∀ j : Fin MAX_HANDLES, 1 ≤ j.val → j.val < k.val → (t j).isSome) ∧
        findhandle t = .ok ((k.val : Int), t) := by
    intro hnf
    obtain ⟨k, h1, hk, hlow⟩ := exists_first_empty t hnf
    have hlt : k.val < 32 := k.isLt
    exact ⟨k, h1, by omega, hk, hlow, findhandle_first t k h1 hk hlow⟩
  refine ⟨hA, ⟨fun hf => ?_, findhandle_full t⟩, ⟨fun hf => ?_, fun h => ⟨_, findhandle_full t h⟩⟩⟩
  · by_contra hnf
    obtain ⟨k, _, _, _, _, hok⟩ := hA hnf
    rw [hok] at hf
    cases hf
  · by_contra hnf
    obtain ⟨k, _, _, _, _, hok⟩ := hA hnf
    obtain ⟨m, hm⟩ := hf
    rw [hok] at hm
    cases hm

theorem store_fin (t : Table) (k : Fin MAX_HANDLES) (f : Option FILE) :
    t.store (k.val : Int) f = .ok (Function.update t k f) := by
  have hk : k.val < 32 := k.isLt
  have h : 0 ≤ (k.val : Int) ∧ (k.val : Int) < (MAX_HANDLES : Int) := by
    constructor
    · omega
    · simp only [MAX_HANDLES]; omega
  unfold Table.store
  rw [dif_pos h]
  congr

theorem load_fin (t : Table) (k : Fin MAX_HANDLES) :
    t.load (k.val : Int) = some (t k) := by
  have hk : k.val < 32 := k.isLt
  have h : 0 ≤ (k.val : Int) ∧ (k.val : Int) < (MAX_HANDLES : Int) := by
    constructor
    · omega
    · simp only [MAX_HANDLES]; omega
  unfold Table.load
  rw [dif_pos h]
  congr

theorem openRead_full (t : Table) (h : t.full) (f : Option FILE) (len : Int) :
    Sys_FileOpenRead t f len = .fatal "out of handles" := by
  unfold Sys_FileOpenRead
  rw [findhandle_full t h]

theorem openWrite_full (t : Table) (h : t.full) (f : Option FILE) :
    Sys_FileOpenWrite t f = .fatal "out of handles" := by
  unfold Sys_FileOpenWrite
  rw [findhandle_full t h]

theorem openRead_fail_not_full (t : Table) (h : ¬ t.full) (len : Int) :
    Sys_FileOpenRead t none len = .ok ({ retval := -1, hndl := -1 }, t) := by
  obtain ⟨k, h1, hk, hlow⟩ := exists_first_empty t h
  unfold Sys_FileOpenRead
  rw [findhandle_first t k h1 hk hlow]

theorem openRead_ok_not_full (t : Table) (h : ¬ t.full) (f : FILE) (len : Int) :
    ∃ k : Fin MAX_HANDLES, 1 ≤ k.val ∧ t k = none ∧
      Sys_FileOpenRead t (some f) len
        = .ok ({ retval := len, hndl := (k.val : Int) }, Function.update t k (some f)) := by
  obtain ⟨k, h1, hk, hlow⟩ := exists_first_empty t h
  refine ⟨k, h1, hk, ?_⟩
  unfold Sys_FileOpenRead
  rw [findhandle_first t k h1 hk hlow]
  simp only [store_fin]

theorem openWrite_ok_not_full (t : Table) (h : ¬ t.full) (f : FILE) :
    ∃ k : Fin MAX_HANDLES, 1 ≤ k.val ∧ t k = none ∧
      Sys_FileOpenWrite t (some f) = .ok ((k.val : Int), Function.update t k (some f)) := by
  obtain ⟨k, h1, hk, hlow⟩ := exists_first_empty t h
  refine ⟨k, h1, hk, ?_⟩
  unfold Sys_FileOpenWrite
  rw [findhandle_first t k h1 hk hlow]
  simp only [store_fin]

theorem tableAllOpen_full : tableAllOpen.full := by
  intro j hj
  have : j.val ≠ 0 := by omega
  simp [tableAllOpen, this]

/-- C3, as stated, fails: with the slots `1 .. 31` occupied, `Sys_FileOpenRead`
on a path whose `fopen` fails does not return `-1`; `findhandle` runs before
`fopen` and ends in the fatal error "out of handles". -/
theorem C3_counterexample_full_table :
    Sys_FileOpenRead tableAllOpen none 0 = .fatal "out of handles" ∧
    ¬ (∀ (t : Table) (len : Int),
        Sys_FileOpenRead t none len = .ok ({ retval := -1, hndl := -1 }, t)) := by
  have h := openRead_full tableAllOpen tableAllOpen_full none 0
  refine ⟨h, fun hall => ?_⟩
  have h2 := hall tableAllOpen 0
  rw [h] at h2
  cases h2

/-- C3, amended. When at least one of the slots `1 .. 31` is empty and the
underlying open-for-read fails, `Sys_FileOpenRead` raises no fatal error: it
returns `-1`, sets `*hndl` to `-1` and leaves the table unchanged. When the
slots `1 .. 31` are all occupied the call ends in the fatal error
"out of handles", whether or not the path can be opened. -/
theorem C3_open_read_failure_is_sentinel_unless_full (t : Table) (len : Int) :
    (¬ t.full →
      Sys_FileOpenRead t none len = .ok ({ retval := -1, hndl := -1 }, t)) ∧
    (t.full → ∀ f : Option FILE, Sys_FileOpenRead t f len = .fatal "out of handles") :=
  ⟨fun h => openRead_fail_not_full t h len, fun h f => openRead_full t h f len⟩

theorem tableEmpty_not_full : ¬ Table.empty.full := by
  intro h
  have := h ⟨1, by simp [MAX_HANDLES]⟩ (le_refl _)
  simp [Table.empty] at this

/-- Witness of C3 (amended): a failed open on the empty table, and any open on
the table with slots `1 .. 31` occupied. -/
theorem C3_open_read_failure_witness :
    Sys_FileOpenRead Table.empty none 0 = .ok ({ retval := -1, hndl := -1 }, Table.empty) ∧
    Sys_FileOpenRead tableAllOpen (some 7) 0 = .fatal "out of handles" :=
  ⟨(C3_open_read_failure_is_sentinel_unless_full Table.empty 0).1 tableEmpty_not_full,
   (C3_open_read_failure_is_sentinel_unless_full tableAllOpen 0).2 tableAllOpen_full (some 7)⟩

/-! ### Sequences of opens and closes -/

theorem liveInv_empty : LiveInv Table.empty [] := by
  refine ⟨List.nodup_nil, ?_, ?_⟩
  · intro h hh; cases hh
  · intro j _; simp [Table.empty]

theorem liveInv_open (t : Table) (live : List Int) (k : Fin MAX_HANDLES) (f : FILE)
    (hinv : LiveInv t live) (h1 : 1 ≤ k.val) (hk : t k = none) :
    (k.val : Int) ∉ live ∧ LiveInv (Function.update t k (some f)) ((k.val : Int) :: live) := by
  obtain ⟨hnd, hrange, hocc⟩ := hinv
  have hnot : (k.val : Int) ∉ live := by
    intro hmem
    have := (hocc k h1).2 hmem
    rw [hk] at this
    simp at this
  refine ⟨hnot, List.nodup_cons.2 ⟨hnot, hnd⟩, ?_, ?_⟩
  · intro h hh
    rcases List.mem_cons.1 hh with rfl | hh
    · have := k.isLt
      simp only [MAX_HANDLES] at this
      omega
    · exact hrange h hh
  · intro j hj
    by_cases hjk : j = k
    · subst hjk
      simp
    · have hne : (j.val : Int) ≠ (k.val : Int) := by
        intro he
        exact hjk (Fin.ext (by exact_mod_cast he))
      rw [Function.update_noteq hjk, List.mem_cons]
      constructor
      · intro hs; exact Or.inr ((hocc j hj).1 hs)
      · rintro (he | hm)
        · exact absurd he hne
        · exact (hocc j hj).2 hm

theorem liveInv_close (t : Table) (live : List Int) (h : Int)
    (hinv : LiveInv t live) (hmem : h ∈ live) :
    ∃ t1, Sys_FileClose t h = .ok t1 ∧ LiveInv t1 (live.erase h) := by
  obtain ⟨hnd, hrange, hocc⟩ := hinv
  obtain ⟨hlo, hhi⟩ := hrange h hmem
  have hlt : h.toNat < MAX_HANDLES := by simp only [MAX_HANDLES]; omega
  have hcast : ((⟨h.toNat, hlt⟩ : Fin MAX_HANDLES).val : Int) = h := by
    simp only []; omega
  have hsome : (t ⟨h.toNat, hlt⟩).isSome := by
    apply (hocc ⟨h.toNat, hlt⟩ (by simp only []; omega)).2
    rw [hcast]; exact hmem
  obtain ⟨p, hp⟩ := Option.isSome_iff_exists.1 hsome
  refine ⟨Function.update t ⟨h.toNat, hlt⟩ none, ?_, ?_⟩
  · have hl := load_fin t ⟨h.toNat, hlt⟩
    have hs := store_fin t ⟨h.toNat, hlt⟩ none
    rw [hcast] at hl hs
    unfold Sys_FileClose
    rw [hl, hp]
    exact hs
  · refine ⟨hnd.erase h, ?_, ?_⟩
    · intro x hx
      exact hrange x (List.mem_of_mem_erase hx)
    · intro j hj
      rw [hnd.mem_erase_iff]
      by_cases hjk : j = ⟨h.toNat, hlt⟩
      · subst hjk
        simp [hcast]
      · have hne : (j.val : Int) ≠ h := by
          intro he
          apply hjk
          apply Fin.ext
          simp only []
          omega
        rw [Function.update_noteq hjk]
        constructor
        · intro hs; exact ⟨hne, (hocc j hj).1 hs⟩
        · intro hm; exact (hocc j hj).2 hm.2

theorem runOps_inv : ∀ (ops : List FileOp) (t : Table) (live : List Int) (t1 : Table)
    (live1 : List Int), LiveInv t live → runOps t live ops = some (t1, live1) →
    LiveInv t1 live1 := by
  intro ops
  induction ops with
  | nil =>
    intro t live t1 live1 hinv hrun
    simp only [runOps, Option.some.injEq, Prod.mk.injEq] at hrun
    obtain ⟨rfl, rfl⟩ := hrun
    exact hinv
  | cons op ops ih =>
    intro t live t1 live1 hinv hrun
    cases op with
    | openRead f len =>
      by_cases hfull : t.full
      · simp [runOps, openRead_full t hfull] at hrun
      · obtain ⟨k, h1, hk, hopen⟩ := openRead_ok_not_full t hfull f len
        simp only [runOps, hopen] at hrun
        exact ih _ _ _ _ (liveInv_open t live k f hinv h1 hk).2 hrun
    | openWrite f =>
      by_cases hfull : t.full
      · simp [runOps, openWrite_full t hfull] at hrun
      · obtain ⟨k, h1, hk, hopen⟩ := openWrite_ok_not_full t hfull f
        simp only [runOps, hopen] at hrun
        exact ih _ _ _ _ (liveInv_open t live k f hinv h1 hk).2 hrun
    | close h =>
      by_cases hmem : h ∈ live
      · obtain ⟨t2, hclose, hinv2⟩ := liveInv_close t live h hinv hmem
        simp only [runOps, hmem, if_true, hclose] at hrun
        exact ih _ _ _ _ hinv2 hrun
      · simp [runOps, hmem] at hrun

theorem liveInv_length_le (t : Table) (live : List Int) (hinv : LiveInv t live) :
    live.length ≤ 31 := by
  obtain ⟨hnd, hrange, _⟩ := hinv
  have hsub : live.toFinset ⊆ Finset.Icc (1 : Int) 31 := by
    intro x hx
    have := hrange x (List.mem_toFinset.1 hx)
    exact Finset.mem_Icc.2 this
  have hcard := Finset.card_le_card hsub
  rw [List.toFinset_card_of_nodup hnd, Int.card_Icc] at hcard
  simpa using hcard

theorem liveInv_full_iff (t : Table) (live : List Int) (hinv : LiveInv t live) :
    t.full ↔ live.length = 31 := by
  have hle := liveInv_length_le t live hinv
  obtain ⟨hnd, hrange, hocc⟩ := hinv
  have hsub : live.toFinset ⊆ Finset.Icc (1 : Int) 31 := by
    intro x hx
    have := hrange x (List.mem_toFinset.1 hx)
    exact Finset.mem_Icc.2 this
  have hcI : (Finset.Icc (1 : Int) 31).card = 31 := by
    rw [Int.card_Icc]; rfl
  constructor
  · intro hfull
    have hsup : Finset.Icc (1 : Int) 31 ⊆ live.toFinset := by
      intro x hx
      obtain ⟨hlo, hhi⟩ := Finset.mem_Icc.1 hx
      have hlt : x.toNat < MAX_HANDLES := by simp only [MAX_HANDLES]; omega
      have hm := (hocc ⟨x.toNat, hlt⟩ (by simp only []; omega)).1
        (hfull ⟨x.toNat, hlt⟩ (by simp only []; omega))
      have hcast : ((x.toNat : Nat) : Int) = x := by omega
      simp only [hcast] at hm
      exact List.mem_toFinset.2 hm
    have hcard := Finset.card_le_card hsup
    rw [List.toFinset_card_of_nodup hnd, hcI] at hcard
    omega
  · intro hlen
    have heq : live.toFinset = Finset.Icc (1 : Int) 31 := by
      apply Finset.eq_of_subset_of_card_le hsub
      rw [List.toFinset_card_of_nodup hnd, hcI, hlen]
    intro j hj
    apply (hocc j hj).2
    apply List.mem_toFinset.1
    rw [heq]
    have := j.isLt
    simp only [MAX_HANDLES] at this
    exact Finset.mem_Icc.2 ⟨by omega, by omega⟩

/-- C2. Start from the empty table and run any sequence of successful
`Sys_FileOpenRead` / `Sys_FileOpenWrite` calls and of `Sys_FileClose` calls on
live handles. The live handles are then pairwise distinct and at most 31; while
fewer than 31 are live, an open returns a handle in `1 .. 31` that differs from
every live handle; with 31 live, an open (read or write, whatever `fopen` would
return) ends in the fatal error "out of handles". -/
theorem C2_opens_return_fresh_handles_until_exhausted (ops : List FileOp) (t : Table)
    (live : List Int) (hrun : runOps Table.empty [] ops = some (t, live)) :
    live.Nodup ∧ live.length ≤ 31 ∧
    (live.length < 31 → ∀ (f : FILE) (len : Int), ∃ (h : Int) (t1 : Table),
        Sys_FileOpenRead t (some f) len = .ok ({ retval := len, hndl := h }, t1) ∧
        Sys_FileOpenWrite t (some f) = .ok (h, t1) ∧
        1 ≤ h ∧ h ≤ 31 ∧ h ∉ live) ∧
    (live.length = 31 → ∀ (f : Option FILE) (len : Int),
        Sys_FileOpenRead t f len = .fatal "out of handles" ∧
        Sys_FileOpenWrite t f = .fatal "out of handles") := by
  have hinv := runOps_inv ops Table.empty [] t live liveInv_empty hrun
  have hfull := liveInv_full_iff t live hinv
  refine ⟨hinv.1, liveInv_length_le t live hinv, ?_, ?_⟩
  · intro hlt f len
    have hnf : ¬ t.full := fun h => by have := hfull.1 h; omega
    obtain ⟨k, h1, hk, hlow⟩ := exists_first_empty t hnf
    have hklt := k.isLt
    simp only [MAX_HANDLES] at hklt
    refine ⟨(k.val : Int), Function.update t k (some f), ?_, ?_, by omega, by omega,
      (liveInv_open t live k f hinv h1 hk).1⟩
    · unfold Sys_FileOpenRead
      rw [findhandle_first t k h1 hk hlow]
      simp only [store_fin]
    · unfold Sys_FileOpenWrite
      rw [findhandle_first t k h1 hk hlow]
      simp only [store_fin]
  · intro hlen f len
    exact ⟨openRead_full t (hfull.2 hlen) f len, openWrite_full t (hfull.2 hlen) f⟩

/-- Witness of C2: open, open, close the first, open again; handles 1 and 2 are live. -/
theorem C2_opens_witness :
    runOps Table.empty [] [.openRead 100 5, .openWrite 200, .close 1, .openRead 300 0]
        = some (tableAfterFourCalls, [1, 2]) ∧
    ([1, 2] : List Int).Nodup ∧
    ∃ (h : Int) (t1 : Table),
      Sys_FileOpenRead tableAfterFourCalls (some 400) 9 = .ok ({ retval := 9, hndl := h }, t1) ∧
      1 ≤ h ∧ h ≤ 31 ∧ h ∉ ([1, 2] : List Int) := by
  have hrun : runOps Table.empty [] [.openRead 100 5, .openWrite 200, .close 1, .openRead 300 0]
        = some (tableAfterFourCalls, [1, 2]) := by decide
  have h := C2_opens_return_fresh_handles_until_exhausted _ _ _ hrun
  obtain ⟨h1, t1, hr, _, hlo, hhi, hfresh⟩ := h.2.2.1 (by decide) 400 9
  exact ⟨hrun, h.1, h1, t1, hr, hlo, hhi, hfresh⟩

/-! ## Theorems: directory creation and lifecycle -/

/-- C7. For every outcome of the underlying `mkdir` and `stat` calls,
`Sys_mkdir` returns normally if and only if `mkdir` succeeded, or `mkdir`
failed with `EEXIST` and `stat` succeeds and reports a directory; in every
other case it ends in the fatal error. A second call on the same path, which
the system answers with `EEXIST` and a directory, therefore succeeds again. -/
theorem C7_mkdir_idempotent_or_fatal (mk : MkdirResult) (sr : StatResult) :
    (Sys_mkdir mk sr = .ok () ↔
      (mk.rc = 0 ∨ (mk.rc ≠ 0 ∧ mk.errno = EEXIST ∧ sr.rc = 0 ∧ sr.isDir = true))) ∧
    (¬ (mk.rc = 0 ∨ (mk.rc ≠ 0 ∧ mk.errno = EEXIST ∧ sr.rc = 0 ∧ sr.isDir = true)) →
      Sys_mkdir mk sr = .fatal "Unable to create directory %s: %s") ∧
    (Sys_mkdir mk sr = .ok () →
      ∀ (mk2 : MkdirResult) (sr2 : StatResult),
        mk2.rc ≠ 0 → mk2.errno = EEXIST → sr2.rc = 0 → sr2.isDir = true →
        Sys_mkdir mk2 sr2 = .ok ()) := by
  refine ⟨?_, ?_, ?_⟩
  · unfold Sys_mkdir
    by_cases h0 : mk.rc = 0
    · simp [h0]
    · by_cases he : mk.errno = EEXIST
      · by_cases hs : sr.rc = 0 ∧ sr.isDir = true
        · simp [h0, he, hs]
        · simp only [ne_eq, h0, not_false_eq_true, he, and_self, if_true, hs, if_false,
            false_or, true_and]
          simp
      · simp [h0, he]
  · intro hn
    push_neg at hn
    obtain ⟨h0, h1⟩ := hn
    unfold Sys_mkdir
    by_cases he : mk.errno = EEXIST
    · have hs : ¬ (sr.rc = 0 ∧ sr.isDir = true) := fun h => h1 h0 he h.1 h.2
      simp [h0, he, hs]
    · simp [h0, he]
  · intro _ mk2 sr2 h0 he hs hd
    unfold Sys_mkdir
    simp [h0, he, hs, hd]

/-- Witness of C7: `mkdir` fails with `EEXIST` on a directory; `mkdir` fails with
`EEXIST` on a regular file; `mkdir` fails with `EACCES` (13). -/
theorem C7_mkdir_witness :
    Sys_mkdir { rc := -1, errno := 17 } { rc := 0, isDir := true } = .ok () ∧
    Sys_mkdir { rc := -1, errno := 17 } { rc := 0, isDir := false }
      = .fatal "Unable to create directory %s: %s" ∧
    Sys_mkdir { rc := -1, errno := 13 } { rc := -1, isDir := false }
      = .fatal "Unable to create directory %s: %s" ∧
    Sys_mkdir { rc := -1, errno := 17 } { rc := 0, isDir := true } = .ok () :=
  ⟨(C7_mkdir_idempotent_or_fatal ⟨-1, 17⟩ ⟨0, true⟩).1.2 (Or.inr (by decide)),
   (C7_mkdir_idempotent_or_fatal ⟨-1, 17⟩ ⟨0, false⟩).2.1 (by decide),
   (C7_mkdir_idempotent_or_fatal ⟨-1, 13⟩ ⟨-1, false⟩).2.1 (by decide),
   (C7_mkdir_idempotent_or_fatal ⟨0, 0⟩ ⟨-1, false⟩).2.2 (by decide) ⟨-1, 17⟩ ⟨0, true⟩
     (by decide) (by decide) (by decide) (by decide)⟩

/-- C4. On both termination paths `Host_Shutdown` is called exactly once and
before the process exit, and the exit is the last thing that happens:
`Sys_Error`, for every message and every value of `isDedicated`, exits with
status 1; `Sys_Quit` exits with status 0. -/
theorem C4_shutdown_once_then_exit (isDedicated : Int) (error text : String) :
    (∃ pre post : List Event,
      Sys_Error isDedicated error text = pre ++ Event.Host_Shutdown :: post ++ [Event.exit 1] ∧
      Event.Host_Shutdown ∉ pre ∧ Event.Host_Shutdown ∉ post ∧
      (∀ e ∈ pre ++ post, e.isExit = false)) ∧
    (Sys_Error isDedicated error text).count Event.Host_Shutdown = 1 ∧
    (∃ pre post : List Event,
      Sys_Quit = pre ++ Event.Host_Shutdown :: post ++ [Event.exit 0] ∧
      Event.Host_Shutdown ∉ pre ∧ Event.Host_Shutdown ∉ post ∧
      (∀ e ∈ pre ++ post, e.isExit = false)) ∧
    Sys_Quit.count Event.Host_Shutdown = 1 := by
  refine ⟨?_, ?_, ⟨[], [], rfl, by simp, by simp, by simp⟩, by decide⟩
  · by_cases hd : isDedicated = 0
    · refine ⟨[.fputs_stderr errortxt1], [.android_log_error error, .fputs_stderr errortxt2,
        .fputs_stderr text, .fputs_stderr "\n\n", .PL_ErrorDialog text], ?_, ?_, ?_, ?_⟩
      · simp [Sys_Error, hd]
      · simp
      · simp
      · intro e he
        simp at he
        rcases he with rfl | rfl | rfl | rfl | rfl | rfl <;> rfl
    · refine ⟨[.fputs_stderr errortxt1], [.android_log_error error, .fputs_stderr errortxt2,
        .fputs_stderr text, .fputs_stderr "\n\n"], ?_, ?_, ?_, ?_⟩
      · simp [Sys_Error, hd]
      · simp
      · simp
      · intro e he
        simp at he
        rcases he with rfl | rfl | rfl | rfl | rfl <;> rfl
  · by_cases hd : isDedicated = 0
    · simp [Sys_Error, hd, List.count_cons]
    · simp [Sys_Error, hd, List.count_cons]

/-! ## Theorems: console input -/

theorem holds_empty (st : ConState) (h0 : st.textlen = 0) (hsz : st.con_text.length = 256) :
    Holds st [] := by
  refine ⟨by simpa using h0, st.con_text, rfl, ?_, ?_⟩
  · simpa using hsz
  · rw [hsz]; omega

theorem poke_nat (buf : List Byte) (n : Nat) (c : Byte) (h : n < 256) :
    poke buf (n : Int) c = some (buf.set n c) := by
  unfold poke CON_TEXT_SIZE
  have h2 : 0 ≤ (n : Int) ∧ (n : Int) < 256 := ⟨by omega, by omega⟩
  rw [if_pos h2]
  simp

theorem fits_nil_len (cur w : List Byte) (h : Fits cur w) : cur.length < 256 := by
  simpa using h 0

theorem fits_cons (cur w : List Byte) (c : Byte) (h : Fits cur (c :: w)) :
    Fits (editStep cur c) w := by
  intro n
  simpa using h (n + 1)

theorem fits_append (a : List Byte) : ∀ (cur b : List Byte), Fits cur (a ++ b) →
    Fits cur a ∧ Fits (List.foldl editStep cur a) b := by
  induction a with
  | nil =>
    intro cur b h
    refine ⟨fun n => ?_, by simpa using h⟩
    simpa using fits_nil_len cur _ h
  | cons c a ih =>
    intro cur b h
    have h1 := fits_cons cur (a ++ b) c (by simpa using h)
    obtain ⟨ha, hb⟩ := ih (editStep cur c) b h1
    refine ⟨fun n => ?_, by simpa using hb⟩
    cases n with
    | zero => simpa using fits_nil_len cur _ h
    | succ m => simpa using ha m

theorem fits_of_bounded (w : List Byte)
    (h : ∀ n : Nat, n ≤ w.length → (editLine (w.take n)).length < 256) : Fits [] w := by
  intro n
  by_cases hn : n ≤ w.length
  · exact h n hn
  · have : w.take n = w.take w.length := by
      rw [List.take_length, List.take_of_length_le (by omega)]
    rw [this]
    exact h w.length (le_refl _)

theorem poll_terminator (st : ConState) (cur : List Byte) (t : Byte)
    (h : Holds st cur) (ht : t = 10 ∨ t = 13) :
    ∃ st1, (∀ rest, Sys_ConsoleInput st (t :: rest)
        = some { line := true, st := st1, rest := rest, log := [] }) ∧
      st1.textlen = 0 ∧ ((0 : Byte) ∉ cur → cstr st1.con_text = some cur) := by
  obtain ⟨hlen, tail, hbuf, htot, htl⟩ := h
  obtain ⟨a, tl, rfl⟩ := List.exists_cons_of_length_pos htl
  refine ⟨{ con_text := cur ++ 0 :: tl, textlen := 0 }, fun rest => ?_, rfl, ?_⟩
  · have hp := poke_nat st.con_text cur.length 0 (by omega)
    rw [Sys_ConsoleInput, if_pos ht, hlen, hp, hbuf]
    simp
  · intro hz
    have hall : ∀ b ∈ cur, (decide (b ≠ 0)) = true := by
      intro b hb
      have : b ≠ 0 := fun he => hz (he ▸ hb)
      simpa using this
    unfold cstr
    simp only [List.mem_append, List.mem_cons, true_or, or_true, if_true]
    rw [List.takeWhile_append_of_pos hall]
    simp

theorem poll_backspace (st : ConState) (cur : List Byte) (h : Holds st cur) :
    ∃ st1, Holds st1 cur.dropLast ∧
      ∀ rest, Sys_ConsoleInput st (8 :: rest) = Sys_ConsoleInput st1 rest := by
  obtain ⟨hlen, tail, hbuf, htot, htl⟩ := h
  have h8 : ¬ ((8 : Byte) = 10 ∨ (8 : Byte) = 13) := by decide
  rcases List.eq_nil_or_concat cur with hnil | ⟨cur1, x, hcur⟩
  · subst hnil
    refine ⟨st, ⟨hlen, tail, hbuf, htot, htl⟩, fun rest => ?_⟩
    have h0 : st.textlen = 0 := by simpa using hlen
    rw [Sys_ConsoleInput, if_neg h8, if_pos rfl]
    simp [h0]
  · rw [List.concat_eq_append] at hcur
    subst hcur
    have hlen1 : st.textlen = (cur1.length : Int) + 1 := by
      rw [hlen]; simp
    have hl : st.textlen - 1 = (cur1.length : Int) := by omega
    have hne : st.textlen ≠ 0 := by omega
    refine ⟨{ con_text := cur1 ++ 0 :: tail, textlen := st.textlen - 1 }, ?_, fun rest => ?_⟩
    · refine ⟨by simpa using hl, 0 :: tail, by simp, ?_, by simp⟩
      simp at htot ⊢
      omega
    · have hp := poke_nat st.con_text cur1.length 0 (by simp at htot; omega)
      rw [Sys_ConsoleInput, if_neg h8, if_pos rfl, if_pos hne, hl, hp, hbuf]
      simp

theorem poll_plain (st : ConState) (cur : List Byte) (c : Byte) (h : Holds st cur)
    (hc : c ≠ 10 ∧ c ≠ 13 ∧ c ≠ 8) (hroom : cur.length + 1 < 256) :
    ∃ st1, Holds st1 (cur ++ [c]) ∧
      ∀ rest, Sys_ConsoleInput st (c :: rest) = Sys_ConsoleInput st1 rest := by
  obtain ⟨hlen, tail, hbuf, htot, htl⟩ := h
  obtain ⟨a, tl, rfl⟩ := List.exists_cons_of_length_pos htl
  have hterm : ¬ (c = 10 ∨ c = 13) := by
    rintro (h | h)
    · exact hc.1 h
    · exact hc.2.1 h
  have hl1 : st.textlen + 1 = ((cur.length + 1 : Nat) : Int) := by
    rw [hlen]; simp
  have hlt : st.textlen + 1 < CON_TEXT_SIZE := by
    rw [hlen]; unfold CON_TEXT_SIZE; omega
  refine ⟨{ con_text := (cur ++ [c]) ++ tl.set 0 0, textlen := st.textlen + 1 }, ?_,
    fun rest => ?_⟩
  · refine ⟨by simpa using hl1, tl.set 0 0, rfl, ?_, ?_⟩
    · simp at htot ⊢; omega
    · simp at htot ⊢; omega
  · have hp1 := poke_nat st.con_text cur.length c (by omega)
    have hp2 := poke_nat (st.con_text.set cur.length c) (cur.length + 1) 0 (by omega)
    rw [Sys_ConsoleInput, if_neg hterm, if_neg hc.2.2, hlen, hp1]
    simp only []
    rw [← hlen, if_pos hlt, hl1, hp2, hbuf]
    simp

theorem poll_overflow (st : ConState) (cur : List Byte) (c : Byte) (h : Holds st cur)
    (hc : c ≠ 10 ∧ c ≠ 13 ∧ c ≠ 8) (hroom : cur.length + 1 = 256) :
    ∃ st1, Holds st1 [] ∧ cstr st1.con_text = some [] ∧
      ∀ rest, Sys_ConsoleInput st (c :: rest)
        = some { line := false, st := st1, rest := rest, log := [tooLong] } := by
  obtain ⟨hlen, tail, hbuf, htot, htl⟩ := h
  have hterm : ¬ (c = 10 ∨ c = 13) := by
    rintro (h | h)
    · exact hc.1 h
    · exact hc.2.1 h
  have hge : ¬ (st.textlen + 1 < CON_TEXT_SIZE) := by
    rw [hlen]; unfold CON_TEXT_SIZE; omega
  have hp1 := poke_nat st.con_text cur.length c (by omega)
  have hp2 := poke_nat (st.con_text.set cur.length c) 0 0 (by omega)
  have hlen2 : ((st.con_text.set cur.length c).set 0 0).length = 256 := by
    rw [List.length_set, List.length_set, hbuf, List.length_append]; exact htot
  obtain ⟨b0, btl, hb⟩ := List.exists_cons_of_length_pos
    (show 0 < (st.con_text.set cur.length c).length by
      rw [List.length_set, hbuf, List.length_append]; omega)
  refine ⟨{ con_text := (st.con_text.set cur.length c).set 0 0, textlen := 0 }, ?_, ?_,
    fun rest => ?_⟩
  · refine ⟨rfl, _, (List.nil_append _).symm, by simpa using hlen2, by rw [hlen2]; omega⟩
  · simp only [hb, List.set_cons_zero]
    unfold cstr
    simp
  · rw [Sys_ConsoleInput, if_neg hterm, if_neg hc.2.2, hlen, hp1]
    simp only []
    rw [← hlen, if_neg hge]
    have hp2b : poke (st.con_text.set cur.length c) 0 0
        = some ((st.con_text.set cur.length c).set 0 0) := by simpa using hp2
    rw [hp2b]
    rfl

/-- Bytes that neither end the line nor overflow the buffer are folded into
the text, and the call goes on with the bytes behind them. -/
theorem poll_run (w : List Byte) : ∀ (st : ConState) (cur : List Byte), Holds st cur →
    (∀ c ∈ w, c ≠ 10 ∧ c ≠ 13) → Fits cur w →
    ∃ st1, Holds st1 (List.foldl editStep cur w) ∧
      ∀ more, Sys_ConsoleInput st (w ++ more) = Sys_ConsoleInput st1 more := by
  induction w with
  | nil =>
    intro st cur h _ _
    exact ⟨st, h, fun more => rfl⟩
  | cons c w ih =>
    intro st cur h hw hfit
    have hc := hw c (List.mem_cons_self c w)
    have hw1 : ∀ b ∈ w, b ≠ 10 ∧ b ≠ 13 := fun b hb => hw b (List.mem_cons_of_mem c hb)
    have hfit1 := fits_cons cur w c hfit
    by_cases h8 : c = 8
    · subst h8
      obtain ⟨st1, hh, hstep⟩ := poll_backspace st cur h
      have hed : editStep cur 8 = cur.dropLast := by simp [editStep]
      obtain ⟨st2, hh2, hrun⟩ := ih st1 (editStep cur 8) (hed ▸ hh) hw1 hfit1
      refine ⟨st2, by simpa using hh2, fun more => ?_⟩
      rw [List.cons_append, hstep, hrun]
    · have hed : editStep cur c = cur ++ [c] := by simp [editStep, h8]
      have hroom : cur.length + 1 < 256 := by
        have := fits_nil_len _ _ hfit1
        rw [hed] at this
        simpa using this
      obtain ⟨st1, hh, hstep⟩ := poll_plain st cur c h ⟨hc.1, hc.2, h8⟩ hroom
      obtain ⟨st2, hh2, hrun⟩ := ih st1 (editStep cur c) (hed ▸ hh) hw1 hfit1
      refine ⟨st2, by simpa using hh2, fun more => ?_⟩
      rw [List.cons_append, hstep, hrun]

/-- Chunks of such bytes, one per call: every call returns `NULL` and reads all
of its chunk. -/
theorem pollSeq_run (pre : List (List Byte)) : ∀ (st : ConState) (cur : List Byte),
    Holds st cur → (∀ c ∈ pre.flatten, c ≠ 10 ∧ c ≠ 13) → Fits cur pre.flatten →
    ∃ st1, Holds st1 (List.foldl editStep cur pre.flatten) ∧
      pollSeq st [] pre = some (List.replicate pre.length false, st1, []) := by
  induction pre with
  | nil =>
    intro st cur h _ _
    exact ⟨st, h, rfl⟩
  | cons chunk pre ih =>
    intro st cur h hw hfit
    rw [List.flatten_cons] at hw hfit ⊢
    obtain ⟨hfa, hfb⟩ := fits_append chunk cur pre.flatten hfit
    obtain ⟨st1, hh1, hrun⟩ := poll_run chunk st cur h
      (fun c hc => hw c (List.mem_append_left _ hc)) hfa
    obtain ⟨st2, hh2, hseq⟩ := ih st1 _ hh1
      (fun c hc => hw c (List.mem_append_right _ hc)) hfb
    refine ⟨st2, by simpa using hh2, ?_⟩
    have hpoll : Sys_ConsoleInput st ([] ++ chunk)
        = some { line := false, st := st1, rest := [], log := [] } := by
      have := hrun []
      rw [List.append_nil] at this
      rw [List.nil_append, this]
      rfl
    rw [pollSeq, hpoll]
    simp only [hseq, List.length_cons, List.replicate_succ]

theorem mem_fold_edit (w : List Byte) : ∀ (cur : List Byte) (b : Byte),
    b ∈ List.foldl editStep cur w → b ∈ cur ∨ b ∈ w := by
  induction w with
  | nil => intro cur b hb; exact Or.inl hb
  | cons c w ih =>
    intro cur b hb
    rw [List.foldl_cons] at hb
    rcases ih _ b hb with h | h
    · unfold editStep at h
      split at h
      · exact Or.inl (List.mem_of_mem_dropLast h)
      · rcases List.mem_append.1 h with h | h
        · exact Or.inl h
        · exact Or.inr (by simp at h; simp [h])
    · exact Or.inr (List.mem_cons_of_mem c h)

theorem fold_edit_plain (w : List Byte) : ∀ (cur : List Byte), (∀ c ∈ w, c ≠ 8) →
    List.foldl editStep cur w = cur ++ w := by
  induction w with
  | nil => intro cur _; simp
  | cons c w ih =>
    intro cur h
    have hc : c ≠ 8 := h c (List.mem_cons_self c w)
    rw [List.foldl_cons, ih _ (fun b hb => h b (List.mem_cons_of_mem c hb))]
    simp [editStep, hc]

/-- From an empty buffer: the bytes `w`, arriving in the chunks `pre` and then
`l` together with the terminator `t`, make every call before the last return
`NULL` and the last call return the edited line. -/
theorem poll_line_from (st : ConState) (hst : Holds st []) (w : List Byte) (t : Byte)
    (pre : List (List Byte)) (l : List Byte) (ht : t = 10 ∨ t = 13)
    (hw : ∀ c ∈ w, c ≠ 10 ∧ c ≠ 13 ∧ c ≠ 0) (hfit : Fits [] w)
    (hsplit : pre.flatten ++ l = w) :
    ∃ (st1 : ConState) (o : PollOut),
      pollSeq st [] pre = some (List.replicate pre.length false, st1, []) ∧
      Sys_ConsoleInput st1 (l ++ [t]) = some o ∧
      o.line = true ∧ o.returned = some (editLine w) ∧ o.st.textlen = 0 ∧ o.rest = [] := by
  subst hsplit
  obtain ⟨hfa, hfb⟩ := fits_append pre.flatten [] l hfit
  obtain ⟨st1, hh1, hseq⟩ := pollSeq_run pre st [] hst
    (fun c hc => ⟨(hw c (List.mem_append_left _ hc)).1, (hw c (List.mem_append_left _ hc)).2.1⟩)
    hfa
  obtain ⟨st2, hh2, hrun⟩ := poll_run l st1 _ hh1
    (fun c hc => ⟨(hw c (List.mem_append_right _ hc)).1, (hw c (List.mem_append_right _ hc)).2.1⟩)
    hfb
  obtain ⟨st3, hterm, hlen3, hline⟩ := poll_terminator st2 _ t hh2 ht
  have hed : List.foldl editStep (List.foldl editStep [] pre.flatten) l
      = editLine (pre.flatten ++ l) := by
    unfold editLine
    rw [List.foldl_append]
  have hz : (0 : Byte) ∉ List.foldl editStep (List.foldl editStep [] pre.flatten) l := by
    rw [hed]
    intro hmem
    rcases mem_fold_edit _ _ _ hmem with h | h
    · cases h
    · exact (hw 0 h).2.2 rfl
  refine ⟨st1, { line := true, st := st3, rest := [], log := [] }, hseq, ?_, rfl, ?_, hlen3, rfl⟩
  · rw [hrun, hterm]
  · unfold PollOut.returned
    simp only [if_true]
    rw [hline hz, hed]

/-- C5. Console line editing. Start from an empty console buffer (length 0;
the initial state `ConState.initial` is one) and feed bytes `w` holding no line
feed, carriage return or NUL, whose edited text never reaches 256 characters,
followed by a terminator `t` (line feed or carriage return). However the bytes
are split over calls (chunks `pre`, one per call, then `l` and the terminator
in the last call), every call before the last returns `NULL`, and the call
that reads the terminator returns exactly the line obtained by folding `w`
left to right (byte 8 removes the last character if there is one, any other
byte is appended) and resets the length to 0. -/
theorem C5_console_line_editing (st : ConState) (w : List Byte) (t : Byte)
    (pre : List (List Byte)) (l : List Byte)
    (hempty : st.textlen = 0) (hsize : st.con_text.length = 256)
    (ht : t = 10 ∨ t = 13)
    (hw : ∀ c ∈ w, c ≠ 10 ∧ c ≠ 13 ∧ c ≠ 0)
    (hfit : ∀ n : Nat, n ≤ w.length → (editLine (w.take n)).length < 256)
    (hsplit : pre.flatten ++ l = w) :
    ∃ (st1 : ConState) (o : PollOut),
      pollSeq st [] pre = some (List.replicate pre.length false, st1, []) ∧
      Sys_ConsoleInput st1 (l ++ [t]) = some o ∧
      o.line = true ∧ o.returned = some (editLine w) ∧ o.st.textlen = 0 ∧ o.rest = [] :=
  poll_line_from st (holds_empty st hempty hsize) w t pre l ht hw (fits_of_bounded w hfit) hsplit

/-- Witness of C5: "ab", backspace, "c", line feed, read in one call and read
in three calls, yields "ac". -/
theorem C5_console_line_editing_witness :
    editLine [97, 98, 8, 99] = [97, 99] ∧
    (∃ (st1 : ConState) (o : PollOut),
      pollSeq ConState.initial [] [] = some ([], st1, []) ∧
      Sys_ConsoleInput st1 ([97, 98, 8, 99] ++ [10]) = some o ∧
      o.line = true ∧ o.returned = some (editLine [97, 98, 8, 99]) ∧ o.st.textlen = 0 ∧
      o.rest = []) ∧
    (∃ (st1 : ConState) (o : PollOut),
      pollSeq ConState.initial [] [[97], [98, 8]] = some ([false, false], st1, []) ∧
      Sys_ConsoleInput st1 ([99] ++ [13]) = some o ∧
      o.line = true ∧ o.returned = some (editLine [97, 98, 8, 99]) ∧ o.st.textlen = 0 ∧
      o.rest = []) :=
  ⟨by decide,
   C5_console_line_editing ConState.initial [97, 98, 8, 99] 10 [] [97, 98, 8, 99]
     rfl (List.length_replicate 256 0) (Or.inl rfl) (by decide) (by decide) rfl,
   C5_console_line_editing ConState.initial [97, 98, 8, 99] 13 [[97], [98, 8]] [99]
     rfl (List.length_replicate 256 0) (Or.inr rfl) (by decide) (by decide) rfl⟩

/-- C6. Console overflow. Start from an empty console buffer (length 0; the
initial state `ConState.initial` is one) and feed 256 bytes (`body`, 255 bytes,
then `c`) with no terminator and no backspace among them, in any chunking, with
any further bytes `more` behind them. The calls before the 256th byte return
`NULL`; the call that reads the 256th byte discards the partial line (length 0,
empty string in the buffer), prints the warning, returns `NULL` and leaves
`more` unread. Bytes `v` fed afterwards (no line feed, carriage return or NUL;
edited text below 256 characters) and a terminator `t` then complete exactly
the line edited from `v`: none of the discarded bytes is part of it. -/
theorem C6_console_overflow_discards (st : ConState) (body : List Byte) (c : Byte)
    (more : List Byte) (pre : List (List Byte)) (l : List Byte)
    (v : List Byte) (t : Byte) (pre2 : List (List Byte)) (l2 : List Byte)
    (hempty : st.textlen = 0) (hsize : st.con_text.length = 256)
    (hlen : body.length = 255)
    (hbody : ∀ b ∈ body ++ [c], b ≠ 10 ∧ b ≠ 13 ∧ b ≠ 8)
    (hsplit : pre.flatten ++ l = body)
    (ht : t = 10 ∨ t = 13)
    (hv : ∀ b ∈ v, b ≠ 10 ∧ b ≠ 13 ∧ b ≠ 0)
    (hfit : ∀ n : Nat, n ≤ v.length → (editLine (v.take n)).length < 256)
    (hsplit2 : pre2.flatten ++ l2 = v) :
    ∃ (st1 st2 st3 : ConState) (o : PollOut),
      pollSeq st [] pre = some (List.replicate pre.length false, st1, []) ∧
      Sys_ConsoleInput st1 (l ++ c :: more)
        = some { line := false, st := st2, rest := more, log := [tooLong] } ∧
      st2.textlen = 0 ∧ cstr st2.con_text = some [] ∧
      pollSeq st2 [] pre2 = some (List.replicate pre2.length false, st3, []) ∧
      Sys_ConsoleInput st3 (l2 ++ [t]) = some o ∧
      o.line = true ∧ o.returned = some (editLine v) ∧ o.st.textlen = 0 ∧ o.rest = [] := by
  subst hsplit
  have hno8 : ∀ b ∈ pre.flatten ++ l, b ≠ 8 :=
    fun b hb => (hbody b (List.mem_append_left _ hb)).2.2
  have hterm : ∀ b ∈ pre.flatten ++ l, b ≠ 10 ∧ b ≠ 13 :=
    fun b hb => ⟨(hbody b (List.mem_append_left _ hb)).1, (hbody b (List.mem_append_left _ hb)).2.1⟩
  have hfitb : Fits [] (pre.flatten ++ l) := by
    intro n
    rw [fold_edit_plain _ [] (fun b hb => hno8 b (List.mem_of_mem_take hb))]
    have : ((pre.flatten ++ l).take n).length ≤ (pre.flatten ++ l).length := by
      rw [List.length_take]; exact Nat.min_le_right _ _
    simp only [List.nil_append]
    omega
  obtain ⟨hfa, hfb⟩ := fits_append pre.flatten [] l hfitb
  obtain ⟨st1, hh1, hseq⟩ := pollSeq_run pre st [] (holds_empty st hempty hsize)
    (fun b hb => hterm b (List.mem_append_left _ hb)) hfa
  obtain ⟨st1b, hh1b, hrun⟩ := poll_run l st1 _ hh1
    (fun b hb => hterm b (List.mem_append_right _ hb)) hfb
  have hcur : List.foldl editStep (List.foldl editStep [] pre.flatten) l = pre.flatten ++ l := by
    rw [← List.foldl_append, fold_edit_plain _ [] hno8, List.nil_append]
  rw [hcur] at hh1b
  obtain ⟨st2, hh2, hempty, hover⟩ := poll_overflow st1b _ c hh1b
    (hbody c (List.mem_append_right _ (List.mem_singleton_self c))) (by rw [hlen])
  obtain ⟨st3, o, hseq2, hpoll, hline, hret, hzero, hrest⟩ :=
    poll_line_from st2 hh2 v t pre2 l2 ht hv (fits_of_bounded v hfit) hsplit2
  refine ⟨st1, st2, st3, o, hseq, ?_, by simpa using hh2.1, hempty, hseq2, hpoll, hline, hret,
    hzero, hrest⟩
  rw [hrun, hover]

/-- Witness of C6: 256 times 'a' and then "b" in one call; "c" and a line feed
in the next. The line is made of bytes fed after the discard only. -/
theorem C6_console_overflow_witness :
    ∃ (st1 st2 st3 : ConState) (o : PollOut),
      pollSeq ConState.initial [] [] = some ([], st1, []) ∧
      Sys_ConsoleInput st1 (List.replicate 255 97 ++ 97 :: [98])
        = some { line := false, st := st2, rest := [98], log := [tooLong] } ∧
      st2.textlen = 0 ∧ cstr st2.con_text = some [] ∧
      pollSeq st2 [] [] = some ([], st3, []) ∧
      Sys_ConsoleInput st3 ([98, 99] ++ [10]) = some o ∧
      o.line = true ∧ o.returned = some (editLine [98, 99]) ∧ o.st.textlen = 0 ∧ o.rest = [] :=
  C6_console_overflow_discards ConState.initial (List.replicate 255 97) 97 [98] []
    (List.replicate 255 97) [98, 99] 10 [] [98, 99] rfl (List.length_replicate 256 0)
    (List.length_replicate 255 97)
    (by
      intro b hb
      have hb97 : b = 97 := by
        rcases List.mem_append.1 hb with h | h
        · exact List.eq_of_mem_replicate h
        · exact List.mem_singleton.1 h
      subst hb97
      decide)
    rfl (Or.inl rfl) (by decide) (by decide) rfl

/-! ### Invariants of the console buffer -/

theorem poke_ok (buf : List Byte) (i : Int) (c : Byte) (h0 : 0 ≤ i) (h1 : i < 256) :
    poke buf i c = some (buf.set i.toNat c) := by
  unfold poke CON_TEXT_SIZE
  rw [if_pos ⟨h0, h1⟩]

theorem peek_set (buf : List Byte) (i : Int) (c : Byte) (hlen : buf.length = 256)
    (h0 : 0 ≤ i) (h1 : i < 256) : peek (buf.set i.toNat c) i = some c := by
  unfold peek CON_TEXT_SIZE
  rw [if_pos ⟨h0, h1⟩]
  exact List.getElem?_set_self (by rw [hlen]; omega)

theorem terminated_of_peek (buf : List Byte) (i : Int) (h : peek buf i = some 0) :
    Terminated { con_text := buf, textlen := i } := Or.inl h

/-- One call keeps the length inside the array and the buffer terminated, and
none of its stores leaves the array. -/
theorem poll_inv (avail : List Byte) : ∀ (st : ConState), InRange st → Terminated st →
    ∃ o, Sys_ConsoleInput st avail = some o ∧ InRange o.st ∧ Terminated o.st := by
  induction avail with
  | nil =>
    intro st hr ht
    exact ⟨_, rfl, hr, ht⟩
  | cons c rest ih =>
    intro st hr ht
    obtain ⟨hlen, h0, h1⟩ := hr
    by_cases hterm : c = 10 ∨ c = 13
    · refine ⟨⟨true, ⟨st.con_text.set st.textlen.toNat 0, 0⟩, rest, []⟩, ?_, ?_, ?_⟩
      · rw [Sys_ConsoleInput, if_pos hterm, poke_ok _ _ _ h0 h1]
      · exact ⟨by simpa using hlen, le_refl _, by simp only []; omega⟩
      · refine Or.inr ⟨rfl, ?_⟩
        exact List.mem_set _ _ (by rw [hlen]; omega) _
    · by_cases h8 : c = 8
      · by_cases hz : st.textlen = 0
        · obtain ⟨o, ho, hro, hto⟩ := ih st ⟨hlen, h0, h1⟩ ht
          refine ⟨o, ?_, hro, hto⟩
          rw [Sys_ConsoleInput, if_neg hterm, if_pos h8]
          simp only [hz, ne_eq, not_true_eq_false, if_false]
          exact ho
        · have hp := poke_ok st.con_text (st.textlen - 1) 0 (by omega) (by omega)
          obtain ⟨o, ho, hro, hto⟩ := ih
            ⟨st.con_text.set (st.textlen - 1).toNat 0, st.textlen - 1⟩
            ⟨by simpa using hlen, by simp only []; omega, by simp only []; omega⟩
            (terminated_of_peek _ _ (peek_set _ _ _ hlen (by omega) (by omega)))
          refine ⟨o, ?_, hro, hto⟩
          rw [Sys_ConsoleInput, if_neg hterm, if_pos h8, if_pos hz, hp]
          exact ho
      · have hp1 := poke_ok st.con_text st.textlen c h0 h1
        have hlen1 : (st.con_text.set st.textlen.toNat c).length = 256 := by
          simpa using hlen
        by_cases hroom : st.textlen + 1 < CON_TEXT_SIZE
        · have hroom2 : st.textlen + 1 < 256 := hroom
          have hp2 := poke_ok (st.con_text.set st.textlen.toNat c) (st.textlen + 1) 0
            (by omega) hroom2
          obtain ⟨o, ho, hro, hto⟩ := ih
            ⟨(st.con_text.set st.textlen.toNat c).set (st.textlen + 1).toNat 0, st.textlen + 1⟩
            ⟨by simpa using hlen, by simp only []; omega, hroom2⟩
            (terminated_of_peek _ _ (peek_set _ _ _ hlen1 (by omega) hroom2))
          refine ⟨o, ?_, hro, hto⟩
          rw [Sys_ConsoleInput, if_neg hterm, if_neg h8, hp1]
          simp only []
          rw [if_pos hroom, hp2]
          exact ho
        · have hp2 := poke_ok (st.con_text.set st.textlen.toNat c) 0 0 (le_refl _) (by decide)
          refine ⟨⟨false, ⟨(st.con_text.set st.textlen.toNat c).set (0 : Int).toNat 0, 0⟩,
            rest, [tooLong]⟩, ?_, ?_, ?_⟩
          · rw [Sys_ConsoleInput, if_neg hterm, if_neg h8, hp1]
            simp only []
            rw [if_neg hroom, hp2]
            rfl
          · exact ⟨by simpa using hlen, le_refl _, by simp only []; omega⟩
          · exact terminated_of_peek _ _ (peek_set _ _ _ hlen1 (le_refl _) (by decide))

theorem pollSeq_inv (chunks : List (List Byte)) : ∀ (st : ConState) (pending : List Byte),
    InRange st → Terminated st →
    ∃ rs st1 p1, pollSeq st pending chunks = some (rs, st1, p1) ∧ InRange st1 ∧
      Terminated st1 := by
  induction chunks with
  | nil =>
    intro st pending hr ht
    exact ⟨[], st, pending, rfl, hr, ht⟩
  | cons chunk chunks ih =>
    intro st pending hr ht
    obtain ⟨o, ho, hro, hto⟩ := poll_inv (pending ++ chunk) st hr ht
    obtain ⟨rs, st1, p1, hseq, hr1, ht1⟩ := ih o.st o.rest hro hto
    refine ⟨o.line :: rs, st1, p1, ?_, hr1, ht1⟩
    rw [pollSeq, ho]
    simp only [hseq]

theorem inRange_initial : InRange ConState.initial :=
  ⟨List.length_replicate 256 0, le_refl _, by decide⟩

theorem terminated_initial : Terminated ConState.initial :=
  Or.inl (by decide)

/-- C9. Console buffer length invariant. From the initial state, after every
call of `Sys_ConsoleInput` on every input byte stream (any chunks of bytes
arriving before each call), no store has left the array (the run is defined)
and the stored length satisfies `0 ≤ textlen < 256`. -/
theorem C9_console_length_in_range (chunks : List (List Byte)) :
    ∃ (rs : List Bool) (st : ConState) (pending : List Byte),
      pollSeq ConState.initial [] chunks = some (rs, st, pending) ∧
      0 ≤ st.textlen ∧ st.textlen < 256 ∧ st.con_text.length = 256 := by
  obtain ⟨rs, st, p, hseq, ⟨hlen, h0, h1⟩, _⟩ :=
    pollSeq_inv chunks ConState.initial [] inRange_initial terminated_initial
  exact ⟨rs, st, p, hseq, h0, h1, hlen⟩

/-- C10, as stated, fails: after the call that reads "a" and a line feed and
returns the line "a", the length is 0 and `con_text[0]` is 'a', not NUL. -/
theorem C10_counterexample_after_line :
    pollSeq ConState.initial [] [[97, 10]] = some ([true], stateAfterLineA, []) ∧
    peek stateAfterLineA.con_text stateAfterLineA.textlen = some 97 ∧
    ¬ (∀ (chunks : List (List Byte)) (rs : List Bool) (st : ConState) (pending : List Byte),
        pollSeq ConState.initial [] chunks = some (rs, st, pending) →
        peek st.con_text st.textlen = some 0) := by
  have h1 : pollSeq ConState.initial [] [[97, 10]] = some ([true], stateAfterLineA, []) := by
    decide
  have h2 : peek stateAfterLineA.con_text stateAfterLineA.textlen = some 97 := by decide
  refine ⟨h1, h2, fun hall => ?_⟩
  have h3 := hall _ _ _ _ h1
  rw [h2] at h3
  cases h3

/-- C10, amended. From the initial zeroed state, after every call of
`Sys_ConsoleInput` on every input byte stream: whenever the length is not 0
the buffer holds a NUL at index `textlen`, and the buffer always holds a NUL
somewhere in its 256 bytes (so the line handed out is NUL-terminated). With
length 0 the buffer may still hold the line handed out last. -/
theorem C10_console_terminated_when_nonempty (chunks : List (List Byte)) :
    ∃ (rs : List Bool) (st : ConState) (pending : List Byte),
      pollSeq ConState.initial [] chunks = some (rs, st, pending) ∧
      (st.textlen ≠ 0 → peek st.con_text st.textlen = some 0) ∧
      (0 : Byte) ∈ st.con_text := by
  obtain ⟨rs, st, p, hseq, _, ht⟩ :=
    pollSeq_inv chunks ConState.initial [] inRange_initial terminated_initial
  refine ⟨rs, st, p, hseq, ?_, ?_⟩
  · intro hne
    rcases ht with h | h
    · exact h
    · exact absurd h.1 hne
  · rcases ht with h | h
    · unfold peek at h
      split at h
      · exact List.getElem?_mem h
      · cases h
    · exact h.2

/-! ## Theorems: packaged assets -/

theorem cstr_padded (name : List Byte) (k : Nat) (hz : (0 : Byte) ∉ name) (hk : 0 < k) :
    cstr (name ++ List.replicate k 0) = some name := by
  obtain ⟨m, rfl⟩ : ∃ m, k = m + 1 := ⟨k - 1, by omega⟩
  have hall : ∀ b ∈ name, (decide (b ≠ 0)) = true := by
    intro b hb
    have : b ≠ 0 := fun he => hz (he ▸ hb)
    simpa using this
  unfold cstr
  rw [List.replicate_succ]
  simp only [List.mem_append, List.mem_cons, true_or, or_true, if_true]
  rw [List.takeWhile_append_of_pos hall]
  simp

theorem dotSlash_test (path : List Byte) :
    (path.getD 0 0 = 46 ∧ path.getD 1 0 = 47) ↔ path.take 2 = [46, 47] := by
  match path with
  | [] => simp
  | [a] =>
    simp only [List.getD_cons_zero, List.getD_cons_succ, List.getD_nil, List.take_succ_cons,
      List.take_nil]
    constructor
    · intro h; exact absurd h.2 (by decide)
    · intro h; simp at h
  | a :: b :: rest => simp

theorem memcpy_path (path : List Byte) (s : Nat) (hs : s ≤ path.length)
    (hlen : (path.drop s).length < 512) :
    memcpy (List.replicate 512 0) ((path ++ [0]).drop s) (path.length - s)
      = some (path.drop s ++ List.replicate (512 - (path.length - s)) 0) := by
  have hd : (path ++ [0]).drop s = path.drop s ++ [0] := List.drop_append_of_le_length hs
  have hl : (path.drop s).length = path.length - s := List.length_drop s path
  unfold memcpy
  rw [hd, if_pos ⟨by rw [List.length_replicate]; omega, by rw [List.length_append, hl]; omega⟩,
    List.take_left' hl, List.drop_replicate]

theorem asset_open_at (AAssetManager_open : List Byte → Option AAsset)
    (AAsset_getLength : AAsset → Nat) (path : List Byte) (s : Nat)
    (hsdef : (if path.getD 0 0 = 46 ∧ path.getD 1 0 = 47 then 2 else 0) = s)
    (hs : s ≤ path.length) (hpath : (0 : Byte) ∉ path) (hlen : (path.drop s).length < 512) :
    ∃ o : AssetOpen,
      Sys_FileOpenRead_asset AAssetManager_open AAsset_getLength path = some o ∧
      o.lookedUp = path.drop s ∧ o.result = AAssetManager_open (path.drop s) := by
  have hz : (0 : Byte) ∉ path.drop s := fun h => hpath (List.mem_of_mem_drop h)
  have hl : (path.drop s).length = path.length - s := List.length_drop s path
  have hc := cstr_padded (path.drop s) (512 - (path.length - s)) hz (by omega)
  unfold Sys_FileOpenRead_asset
  simp only [hsdef, memcpy_path path s hs hlen, hc]
  cases hopen : AAssetManager_open (path.drop s) with
  | none => exact ⟨_, rfl, rfl, rfl⟩
  | some a => exact ⟨_, rfl, rfl, rfl⟩

/-- C8. In the asset build, for every path (a C string: no NUL among its
bytes) whose stripped form has fewer than 512 characters, the name
`Sys_FileOpenRead` looks up is the path with one leading "./" removed when it
starts with "./", and the path itself otherwise; the call returns what the
lookup returns, and when the lookup fails it returns `NULL`: there is no
fatal error. -/
theorem C8_asset_open_strips_dot_slash (AAssetManager_open : List Byte → Option AAsset)
    (AAsset_getLength : AAsset → Nat) (path : List Byte)
    (hpath : (0 : Byte) ∉ path) (hlen : (stripDotSlash path).length < 512) :
    ∃ o : AssetOpen,
      Sys_FileOpenRead_asset AAssetManager_open AAsset_getLength path = some o ∧
      o.lookedUp = stripDotSlash path ∧
      o.result = AAssetManager_open (stripDotSlash path) ∧
      (AAssetManager_open (stripDotSlash path) = none → o.result = none) := by
  by_cases h : path.take 2 = [46, 47]
  · have hstrip : stripDotSlash path = path.drop 2 := by simp [stripDotSlash, h]
    have h2 : 2 ≤ path.length := by
      have := congrArg List.length h
      rw [List.length_take] at this
      simp at this
      omega
    rw [hstrip] at hlen ⊢
    obtain ⟨o, ho, hname, hres⟩ := asset_open_at AAssetManager_open AAsset_getLength path 2
      (if_pos ((dotSlash_test path).2 h)) h2 hpath hlen
    exact ⟨o, ho, hname, hres, fun hn => hres.trans hn⟩
  · have hstrip : stripDotSlash path = path := by simp [stripDotSlash, h]
    rw [hstrip] at hlen ⊢
    obtain ⟨o, ho, hname, hres⟩ := asset_open_at AAssetManager_open AAsset_getLength path 0
      (if_neg (fun hh => h ((dotSlash_test path).1 hh))) (Nat.zero_le _) hpath
      (by simpa using hlen)
    rw [List.drop_zero] at hname hres
    exact ⟨o, ho, hname, hres, fun hn => hres.trans hn⟩

/-- Witness of C8: "././a" is looked up as "./a", and a failed lookup gives `NULL`. -/
theorem C8_asset_open_witness :
    stripDotSlash [46, 47, 46, 47, 97] = [46, 47, 97] ∧
    ∃ o : AssetOpen,
      Sys_FileOpenRead_asset (fun _ => none) (fun _ => 0) [46, 47, 46, 47, 97] = some o ∧
      o.lookedUp = stripDotSlash [46, 47, 46, 47, 97] ∧
      o.result = (fun _ => none) (stripDotSlash [46, 47, 46, 47, 97]) ∧
      ((fun _ => none) (stripDotSlash [46, 47, 46, 47, 97]) = (none : Option AAsset) →
        o.result = none) :=
  ⟨by decide,
   C8_asset_open_strips_dot_slash (fun _ => none) (fun _ => 0) [46, 47, 46, 47, 97]
     (by decide) (by decide)⟩

end SysAndroid
